/-
Verification of the retention-policy cleaner (`nexus_cleaner.py`).

Shallow embedding notes:
* Timestamps are modelled as `Int` seconds since an epoch; `timedelta(days=d)`
  is `d * 86400` seconds.
* Python's `dict` (insertion ordered, unique keys) is modelled as an
  association list `List (String × _)`; key uniqueness is a hypothesis
  (`Nodup` on the keys) where a proof needs it.
* Python's `sorted` is a stable ascending sort; it is modelled by Mathlib's
  `List.insertionSort`, which is stable.
* Python code that can raise (`sorted(assets)[-1]` raises `IndexError` on an
  empty asset list) is modelled in the `Option` monad, `none` being the raise.
* The `__main__` argument check and the network-facing loop `do_delete` are
  modelled as a pure function from a `World` (the remote data) to the list of
  remote requests the run would issue, wrapped in `Except` for the
  configuration error raised before any remote interaction.
-/
import Mathlib

set_option linter.unusedVariables false

/-- A raw asset record as returned by the remote listing:
a `lastModified` timestamp and an opaque `id`. -/
structure RawAsset where
  lastModified : Int
  id : String
deriving DecidableEq, Repr

/-- The `Asset` dataclass of the source: one aggregated (name, version) record
with the representative timestamp and the deletion handle. -/
structure Asset where
  image_name : String
  version : String
  last_modified : Int
  id : String
deriving DecidableEq, Repr

/-- The `Params` dataclass: `count` (keep count), `days` (optional age cutoff,
`None` modelled as `none`), `names` (optional name filter), `test` (dry run),
`full_info` (audit view flag). -/
structure Params where
  count : Int
  days : Option Int
  names : Option (List String)
  test : Bool
  full_info : Bool
deriving DecidableEq, Repr

/-- `MIN_COUNT_VERSIONS` of the source. -/
def MIN_COUNT_VERSIONS : Int := 10

/-- Ordering of raw assets used by `sorted(assets, key=lambda x: parse_date(x['lastModified']))`. -/
def assetLe (a b : RawAsset) : Prop := a.lastModified ≤ b.lastModified

instance : DecidableRel assetLe := fun a b => inferInstanceAs (Decidable (a.lastModified ≤ b.lastModified))

instance : IsTotal RawAsset assetLe := ⟨fun a b => Int.le_total a.lastModified b.lastModified⟩

instance : IsTrans RawAsset assetLe := ⟨fun _ _ _ h h' => le_trans h h'⟩

/-- Ordering of aggregated records used by `sorted(name_items_info, key=lambda x: x.last_modified)`. -/
def versionLe (a b : Asset) : Prop := a.last_modified ≤ b.last_modified

instance : DecidableRel versionLe := fun a b => inferInstanceAs (Decidable (a.last_modified ≤ b.last_modified))

instance : IsTotal Asset versionLe := ⟨fun a b => Int.le_total a.last_modified b.last_modified⟩

instance : IsTrans Asset versionLe := ⟨fun _ _ _ h h' => le_trans h h'⟩

/-- `sorted(assets, key=lambda x: parse_date(x['lastModified']))[-1]`:
the last element of the stable ascending sort of the asset list, `none` on the
empty list (Python raises `IndexError` there). -/
def latestAsset (assets : List RawAsset) : Option RawAsset :=
  (List.insertionSort assetLe assets).getLast?

/-- Recursive characterisation of `latestAsset`, used to settle the
tie-breaking behaviour: the element achieving the maximum timestamp that
occurs LAST in the enumeration order (on a tie the earlier `m` is kept only
when strictly newer than the later candidate `x`; processing is from the
right, so ties favour the later element). -/
def lastMax : List RawAsset → Option RawAsset
  | [] => none
  | x :: l =>
    match lastMax l with
    | none => some x
    | some m => if m.lastModified < x.lastModified then some x else some m

/-- The inner loop of `sort_assets` over one name's `(version, assets)` pairs:
builds `name_items_info`, propagating the `IndexError` of an empty asset list
as `none`. -/
def collectVersions (name : String) : List (String × List RawAsset) → Option (List Asset)
  | [] => some []
  | (ver, assets) :: rest => do
    let latest ← latestAsset assets
    let tail ← collectVersions name rest
    pure (Asset.mk name ver latest.lastModified latest.id :: tail)

/-- The name-filter guard `if self.params.names and name not in self.params.names: continue`.
A `None` or empty `names` list is falsy, so no name is skipped then. -/
def nameAllowed (params : Params) (name : String) : Bool :=
  match params.names with
  | none => true
  | some ns => if ns.isEmpty then true else ns.contains name

/-- `NexusApi.sort_assets`: filters names, aggregates each version to its
latest asset, and sorts each name's records ascending by `last_modified`. -/
def sort_assets (params : Params) : List (String × List (String × List RawAsset)) →
    Option (List (String × List Asset))
  | [] => some []
  | (name, items) :: rest =>
    if nameAllowed params name then do
      let info ← collectVersions name items
      let tail ← sort_assets params rest
      pure ((name, List.insertionSort versionLe info) :: tail)
    else sort_assets params rest

/-- The Python slice `lst[:-count]` for an `int` count: for positive `count`
all but the last `count` elements; `lst[:-0]` is `lst[:0] = []`; for negative
`count` it is `lst[:(-count)]`, the first `-count` elements. -/
def pySliceDropLast (l : List Asset) (count : Int) : List Asset :=
  if 0 < count then l.take (l.length - count.toNat)
  else if count = 0 then []
  else l.take (-count).toNat

/-- `compare_date` of `prepare_assets_list`: set only when `self.params.days`
is truthy (present and nonzero); then `datetime.now(utc) - timedelta(days=days)`. -/
def compareDate (params : Params) (now : Int) : Option Int :=
  match params.days with
  | none => none
  | some d => if d = 0 then none else some (now - d * 86400)

/-- The per-name body of `prepare_assets_list`: slice away the keep window,
then (when a compare date is set) keep only records strictly older than it. -/
def assetsToDel (params : Params) (now : Int) (name_versions : List Asset) : List Asset :=
  let base := pySliceDropLast name_versions params.count
  match compareDate params now with
  | none => base
  | some cd => base.filter (fun one => decide (one.last_modified < cd))

/-- `NexusDockerCleaner.prepare_assets_list`: the deletion plan, an
insertion-ordered map from name to its non-empty list of records to delete
(names whose list is empty are omitted). -/
def prepare_assets_list (params : Params) (now : Int)
    (grouped_and_sorted_items : List (String × List Asset)) : List (String × List Asset) :=
  grouped_and_sorted_items.filterMap (fun p =>
    let td := assetsToDel params now p.2
    if td.isEmpty then none else some (p.1, td))

/-- Looking a name up in a plan (or any insertion-ordered map), with the
convention that an absent name maps to the empty list. -/
def planLookup (name : String) (plan : List (String × List Asset)) : List Asset :=
  match plan.find? (fun p => p.1 == name) with
  | none => []
  | some p => p.2

/-- `NexusDockerCleaner.print_full_log`: the audit annotation of one name's
full list; each record is paired with its keep flag `one.id not in left_ids`. -/
def print_full_log (all_assets assets_to_del : List Asset) : List (Asset × Bool) :=
  let left_ids := assets_to_del.map (fun one => one.id)
  all_assets.map (fun one => (one, !(left_ids.contains one.id)))

/-- The audit view emitted by `prepare_assets_list` when `full_info` is set:
one annotated entry per processed name, regardless of whether anything is
selected for deletion there. -/
def auditView (params : Params) (now : Int)
    (grouped_and_sorted_items : List (String × List Asset)) : List (String × List (Asset × Bool)) :=
  if params.full_info then
    grouped_and_sorted_items.map (fun p =>
      (p.1, print_full_log p.2 (assetsToDel params now p.2)))
  else []

/-- A remote call issued by the run. -/
inductive Request where
  | listRepos : Request
  | listAssets : String → Request
  | deleteAsset : String → Request
deriving DecidableEq, Repr

/-- The remote world as the run observes it: the repository listing
(`name, format, type` triples) and, per repository, the grouped raw items
(`get_repo_assets` output: name ↦ list of (version, assets)). -/
structure World where
  repos : List (String × String × String)
  repoAssets : List (String × List (String × List (String × List RawAsset)))
deriving Repr

/-- The grouped assets of one repository in the world. -/
def World.assetsOf (w : World) (repo : String) : List (String × List (String × List RawAsset)) :=
  match w.repoAssets.find? (fun p => p.1 == repo) with
  | none => []
  | some p => p.2

/-- `get_docker_repos`: names of repositories with format `docker` and type `hosted`. -/
def get_docker_repos (w : World) : List String :=
  (w.repos.filter (fun o => o.2.1 == "docker" && o.2.2 == "hosted")).map (fun o => o.1)

/-- `delete_old`: the delete requests issued for one name's deletion list
(none in test mode). -/
def delete_old (params : Params) (assets_list : List Asset) : List Request :=
  if params.test then [] else assets_list.map (fun one => Request.deleteAsset one.id)

/-- `NexusDockerCleaner.do_delete`: the sequence of remote requests one run
issues, `none` when aggregation raises (empty asset list). -/
def do_delete (params : Params) (now : Int) (w : World) : Option (List Request) :=
  (get_docker_repos w).foldlM (fun acc repo => do
    let sorted ← sort_assets params (w.assetsOf repo)
    let plan := prepare_assets_list params now sorted
    pure (acc ++ [Request.listAssets repo] ++
      plan.foldl (fun reqs p => reqs ++ delete_old params p.2) []))
    [Request.listRepos]

/-- The `__main__` entry: the `count < MIN_COUNT_VERSIONS` check raises
`ValueError` before the cleaner is constructed, so an error result carries no
remote requests at all; otherwise the run's request trace is that of
`do_delete` (an inner `IndexError` also surfaces as an error). -/
def main_run (params : Params) (now : Int) (w : World) : Except String (List Request) :=
  if params.count < MIN_COUNT_VERSIONS then
    Except.error "count must be equals or greater than 10"
  else
    match do_delete params now w with
    | none => Except.error "IndexError"
    | some reqs => Except.ok reqs

/-! ### Helper lemmas -/

theorem planLookup_nil (name : String) : planLookup name [] = [] := rfl

theorem planLookup_cons (name n0 : String) (td : List Asset) (tl : List (String × List Asset)) :
    planLookup name ((n0, td) :: tl) = if n0 = name then td else planLookup name tl := by
  by_cases h : n0 = name <;> simp [planLookup, List.find?_cons, h]

theorem planLookup_of_not_mem (name : String) (plan : List (String × List Asset))
    (h : name ∉ plan.map Prod.fst) : planLookup name plan = [] := by
  induction plan with
  | nil => rfl
  | cons p tl ih =>
    obtain ⟨n0, td⟩ := p
    simp only [List.map_cons, List.mem_cons, not_or] at h
    rw [planLookup_cons, if_neg (Ne.symm h.1), ih h.2]

theorem mem_prepare_assets_list {params : Params} {now : Int}
    {m : List (String × List Asset)} {q : String × List Asset} :
    q ∈ prepare_assets_list params now m ↔
      ∃ nv, (q.1, nv) ∈ m ∧ assetsToDel params now nv = q.2 ∧ q.2 ≠ [] := by
  constructor
  · intro hq
    obtain ⟨p, hp, hf⟩ := List.mem_filterMap.1 hq
    simp only at hf
    by_cases he : (assetsToDel params now p.2).isEmpty
    · rw [if_pos he] at hf; cases hf
    · rw [if_neg he] at hf
      injection hf with hf
      subst hf
      exact ⟨p.2, by simpa using hp, rfl, List.isEmpty_eq_false.1 (Bool.not_eq_true _ ▸ he)⟩
  · rintro ⟨nv, hnv, htd, hne⟩
    refine List.mem_filterMap.2 ⟨(q.1, nv), hnv, ?_⟩
    have he2 : q.2.isEmpty = false := List.isEmpty_eq_false.2 hne
    simp only [htd, he2, Bool.false_eq_true, if_false]

theorem planLookup_prepare (params : Params) (now : Int)
    (grouped : List (String × List Asset)) (name : String) (nv : List Asset)
    (hkeys : (grouped.map Prod.fst).Nodup) (hmem : (name, nv) ∈ grouped) :
    planLookup name (prepare_assets_list params now grouped) = assetsToDel params now nv := by
  induction grouped with
  | nil => cases hmem
  | cons p rest ih =>
    obtain ⟨n0, v0⟩ := p
    rw [List.map_cons] at hkeys
    have hk1 : n0 ∉ rest.map Prod.fst := (List.nodup_cons.1 hkeys).1
    have hk2 : (rest.map Prod.fst).Nodup := (List.nodup_cons.1 hkeys).2
    rcases List.mem_cons.1 hmem with heq | hmem'
    · injection heq with hn hv
      subst hn; subst hv
      by_cases he : (assetsToDel params now nv).isEmpty
      · have hnil : assetsToDel params now nv = [] := List.isEmpty_iff.1 he
        have hnot : name ∉ (prepare_assets_list params now rest).map Prod.fst := by
          intro hin
          obtain ⟨q, hq, hq1⟩ := List.mem_map.1 hin
          obtain ⟨nv', hnv', _, _⟩ := mem_prepare_assets_list.1 hq
          exact hk1 (List.mem_map.2 ⟨(q.1, nv'), hnv', hq1⟩)
        simp only [prepare_assets_list, List.filterMap_cons, he, ite_true]
        rw [hnil]
        exact planLookup_of_not_mem _ _ hnot
      · simp only [prepare_assets_list, List.filterMap_cons, he, Bool.false_eq_true,
          if_false]
        rw [planLookup_cons, if_pos rfl]
    · have hne : n0 ≠ name := by
        intro h; subst h
        exact hk1 (List.mem_map.2 ⟨(n0, nv), hmem', rfl⟩)
      by_cases he : (assetsToDel params now v0).isEmpty
      · simp only [prepare_assets_list, List.filterMap_cons, he, ite_true]
        exact ih hk2 hmem'
      · simp only [prepare_assets_list, List.filterMap_cons, he, Bool.false_eq_true,
          if_false]
        rw [planLookup_cons, if_neg hne]
        exact ih hk2 hmem'

/-! ### Claim theorems -/

/-- C7: a configuration whose `count` is below the floor of 10 is rejected with
the `ValueError` of `__main__` before the cleaner is constructed; the run's
result is the configuration error, whose trace of issued remote requests is
empty — no listing or deletion call is issued. -/
theorem C7_count_floor_rejected (params : Params) (now : Int) (w : World)
    (h : params.count < 10) :
    main_run params now w = Except.error "count must be equals or greater than 10" := by
  rw [main_run, if_pos (by exact_mod_cast h)]

/-- Witness for C7 at a concrete configuration (`count = 5`) and a concrete
world: the run is rejected before any remote request. -/
theorem C7_witness :
    (5 : Int) < 10 ∧
      main_run (Params.mk 5 none none false false) 0
          (World.mk [("r", "docker", "hosted")] [("r", [("app", [("v1", [RawAsset.mk 1 "x"])])])])
        = Except.error "count must be equals or greater than 10" :=
  ⟨by decide, C7_count_floor_rejected _ 0 _ (by decide)⟩

/-- C9: `days = 0` is falsy in `if self.params.days:`, exactly like `days = None`,
so the age filter is skipped and the deletion plan is the count-only plan. -/
theorem C9_zero_days_no_cutoff (params : Params) (now : Int)
    (g : List (String × List (String × List RawAsset)))
    (m : List (String × List Asset)) :
    sort_assets { params with days := some 0 } g = sort_assets { params with days := none } g ∧
      prepare_assets_list { params with days := some 0 } now m
        = prepare_assets_list { params with days := none } now m := by
  refine ⟨?_, rfl⟩
  induction g with
  | nil => rfl
  | cons p rest ih =>
    obtain ⟨name, items⟩ := p
    rw [sort_assets, sort_assets, ih]
    exact rfl

/-- C10: an empty `names` list is falsy in the guard
`if self.params.names and name not in self.params.names:`, exactly like
`names = None`: no name is skipped, and the plan computed downstream is
identical. -/
theorem C10_empty_names_no_filter (params : Params) (now : Int)
    (g : List (String × List (String × List RawAsset)))
    (m : List (String × List Asset)) :
    sort_assets { params with names := some [] } g = sort_assets { params with names := none } g ∧
      prepare_assets_list { params with names := some [] } now m
        = prepare_assets_list { params with names := none } now m := by
  refine ⟨?_, rfl⟩
  induction g with
  | nil => rfl
  | cons p rest ih =>
    obtain ⟨name, items⟩ := p
    simp only [sort_assets, nameAllowed, List.isEmpty_nil, ite_true, ih]

theorem assetsToDel_of_days_none (params : Params) (now : Int) (nv : List Asset)
    (hdays : params.days = none) (hk : 0 < params.count) :
    assetsToDel params now nv = nv.take (nv.length - params.count.toNat) := by
  rw [assetsToDel, compareDate, hdays]
  simp only [pySliceDropLast, if_pos hk]

/-- C1: with no age cutoff and keep count `k ≥ 10`, the plan for a name whose
`n` versions are listed ascending is exactly the prefix of the `n − k` oldest
versions, empty when `n ≤ k`, and never contains any of the `k` most recent. -/
theorem C1_count_retention (params : Params) (now : Int)
    (grouped : List (String × List Asset)) (name : String) (nv : List Asset)
    (hkeys : (grouped.map Prod.fst).Nodup) (hmem : (name, nv) ∈ grouped)
    (hdays : params.days = none) (hk : 10 ≤ params.count) (hnd : nv.Nodup) :
    planLookup name (prepare_assets_list params now grouped)
        = nv.take (nv.length - params.count.toNat) ∧
      (nv.length ≤ params.count.toNat →
        planLookup name (prepare_assets_list params now grouped) = []) ∧
      ∀ v ∈ nv.drop (nv.length - params.count.toNat),
        v ∉ planLookup name (prepare_assets_list params now grouped) := by
  have hkpos : 0 < params.count := lt_of_lt_of_le (by norm_num) hk
  have h1 : planLookup name (prepare_assets_list params now grouped)
      = nv.take (nv.length - params.count.toNat) :=
    (planLookup_prepare params now grouped name nv hkeys hmem).trans
      (assetsToDel_of_days_none params now nv hdays hkpos)
  refine ⟨h1, ?_, ?_⟩
  · intro hle
    rw [h1, Nat.sub_eq_zero_of_le hle, List.take_zero]
  · intro v hvdrop hvplan
    rw [h1] at hvplan
    exact List.disjoint_take_drop hnd le_rfl hvplan hvdrop

/-- Witness for C1: twelve distinct versions, `count = 10`, no age cutoff; the
plan is the two oldest versions and omits the ten most recent. -/
theorem C1_witness :
    ((([("app", (List.range 12).map (fun i => Asset.mk "app" (toString i) i (toString i)))]
        : List (String × List Asset)).map Prod.fst).Nodup ∧
      (10 : Int) ≤ 10) ∧
    (planLookup "app" (prepare_assets_list (Params.mk 10 none none false false) 0
          [("app", (List.range 12).map (fun i => Asset.mk "app" (toString i) i (toString i)))])
        = ((List.range 12).map (fun i => Asset.mk "app" (toString i) i (toString i))).take
            (((List.range 12).map (fun i => Asset.mk "app" (toString i) i (toString i))).length
              - (10 : Int).toNat) ∧
      (((List.range 12).map (fun i => Asset.mk "app" (toString i) i (toString i))).length
          ≤ (10 : Int).toNat →
        planLookup "app" (prepare_assets_list (Params.mk 10 none none false false) 0
          [("app", (List.range 12).map (fun i => Asset.mk "app" (toString i) i (toString i)))]) = []) ∧
      ∀ v ∈ ((List.range 12).map (fun i => Asset.mk "app" (toString i) i (toString i))).drop
            (((List.range 12).map (fun i => Asset.mk "app" (toString i) i (toString i))).length
              - (10 : Int).toNat),
        v ∉ planLookup "app" (prepare_assets_list (Params.mk 10 none none false false) 0
          [("app", (List.range 12).map (fun i => Asset.mk "app" (toString i) i (toString i)))])) :=
  ⟨⟨by decide, by decide⟩,
    C1_count_retention (Params.mk 10 none none false false) 0 _ "app" _
      (by decide) (by decide) rfl (by decide) (by decide)⟩

theorem assetsToDel_of_days_some (params : Params) (now : Int) (nv : List Asset)
    (d : Int) (hd : params.days = some d) (hdnz : d ≠ 0) (hk : 0 < params.count) :
    assetsToDel params now nv
      = (nv.take (nv.length - params.count.toNat)).filter
          (fun one => decide (one.last_modified < now - d * 86400)) := by
  rw [assetsToDel, compareDate, hd]
  simp only [hdnz, if_false, pySliceDropLast, if_pos hk, ite_false]

/-- C3: with an age cutoff of `d` days set, a version in the candidate window
(the versions before the keep window) is in the plan iff its timestamp is
strictly older than `now − d` days, and any version at or after the cutoff is
kept even when it lies outside the keep window. -/
theorem C3_age_cutoff (params : Params) (now : Int)
    (grouped : List (String × List Asset)) (name : String) (nv : List Asset) (d : Int)
    (hkeys : (grouped.map Prod.fst).Nodup) (hmem : (name, nv) ∈ grouped)
    (hd : params.days = some d) (hdpos : 0 < d) (hk : 0 < params.count) :
    (∀ v, v ∈ planLookup name (prepare_assets_list params now grouped) ↔
        v ∈ nv.take (nv.length - params.count.toNat) ∧ v.last_modified < now - d * 86400) ∧
      ∀ v ∈ nv, now - d * 86400 ≤ v.last_modified →
        v ∉ planLookup name (prepare_assets_list params now grouped) := by
  have h1 : planLookup name (prepare_assets_list params now grouped)
      = (nv.take (nv.length - params.count.toNat)).filter
          (fun one => decide (one.last_modified < now - d * 86400)) :=
    (planLookup_prepare params now grouped name nv hkeys hmem).trans
      (assetsToDel_of_days_some params now nv d hd (ne_of_gt hdpos) hk)
  have hiff : ∀ v, v ∈ planLookup name (prepare_assets_list params now grouped) ↔
      v ∈ nv.take (nv.length - params.count.toNat) ∧ v.last_modified < now - d * 86400 := by
    intro v
    rw [h1, List.mem_filter, decide_eq_true_iff]
  refine ⟨hiff, ?_⟩
  intro v hv hge hvplan
  exact absurd ((hiff v).1 hvplan).2 (not_lt.2 hge)

/-- Witness for C3: twelve versions at daily timestamps, `count = 10`,
`days = 5`, `now` = day 13: the candidate window is the two oldest versions
and both are strictly older than the cutoff. -/
theorem C3_witness :
    ((([("app", (List.range 12).map (fun i => Asset.mk "app" (toString i) (i * 86400) (toString i)))]
        : List (String × List Asset)).map Prod.fst).Nodup ∧ (0 : Int) < 5 ∧ (0 : Int) < 10) ∧
    ((∀ v, v ∈ planLookup "app" (prepare_assets_list (Params.mk 10 (some 5) none false false)
            (13 * 86400)
            [("app", (List.range 12).map (fun i => Asset.mk "app" (toString i) (i * 86400) (toString i)))]) ↔
        v ∈ ((List.range 12).map (fun i => Asset.mk "app" (toString i) (i * 86400) (toString i))).take
            (((List.range 12).map (fun i => Asset.mk "app" (toString i) (i * 86400) (toString i))).length
              - (10 : Int).toNat) ∧
          v.last_modified < 13 * 86400 - 5 * 86400) ∧
      ∀ v ∈ (List.range 12).map (fun i => Asset.mk "app" (toString i) (i * 86400) (toString i)),
        13 * 86400 - 5 * 86400 ≤ v.last_modified →
          v ∉ planLookup "app" (prepare_assets_list (Params.mk 10 (some 5) none false false)
            (13 * 86400)
            [("app", (List.range 12).map (fun i => Asset.mk "app" (toString i) (i * 86400) (toString i)))])) :=
  ⟨⟨by decide, by decide, by decide⟩,
    C3_age_cutoff (Params.mk 10 (some 5) none false false) (13 * 86400) _ "app" _ 5
      (by decide) (by decide) rfl (by decide) (by decide)⟩

theorem sort_assets_mem {params : Params} :
    ∀ {g : List (String × List (String × List RawAsset))} {m : List (String × List Asset)},
      sort_assets params g = some m → ∀ q ∈ m,
        nameAllowed params q.1 = true ∧ ∃ info, q.2 = List.insertionSort versionLe info := by
  intro g
  induction g with
  | nil =>
    intro m h q hq
    rw [sort_assets] at h
    injection h with h
    subst h
    cases hq
  | cons p rest ih =>
    obtain ⟨name, items⟩ := p
    intro m h q hq
    rw [sort_assets] at h
    by_cases hna : nameAllowed params name
    · rw [if_pos hna] at h
      cases hc : collectVersions name items with
      | none => rw [hc] at h; cases h
      | some info =>
        rw [hc] at h
        cases hs : sort_assets params rest with
        | none => rw [hs] at h; cases h
        | some tail =>
          rw [hs] at h
          injection h with h
          subst h
          rcases List.mem_cons.1 hq with heq | hmem'
          · subst heq
            exact ⟨hna, info, rfl⟩
          · exact ih hs q hmem'
    · rw [if_neg hna] at h
      exact ih h q hq

theorem assetsToDel_sublist (params : Params) (now : Int) (nv : List Asset) :
    List.Sublist (assetsToDel params now nv) nv := by
  have hbase : List.Sublist (pySliceDropLast nv params.count) nv := by
    rw [pySliceDropLast]
    by_cases h1 : 0 < params.count
    · rw [if_pos h1]; exact List.take_sublist _ _
    · rw [if_neg h1]
      by_cases h2 : params.count = 0
      · rw [if_pos h2]; exact List.nil_sublist _
      · rw [if_neg h2]; exact List.take_sublist _ _
  rw [assetsToDel]
  cases hcd : compareDate params now with
  | none => exact hbase
  | some cd => exact (List.filter_sublist _).trans hbase

/-- C6: for the plan computed from an aggregated (sorted) input, every name
present in the plan maps to a non-empty list that is still ascending by
`last_modified`; and (the keys being unique) a name whose filtered candidate
list is empty does not appear in the plan at all. -/
theorem C6_plan_invariants (params : Params) (now : Int)
    (g : List (String × List (String × List RawAsset))) (m : List (String × List Asset))
    (hm : sort_assets params g = some m) :
    (∀ name l, (name, l) ∈ prepare_assets_list params now m →
        l ≠ [] ∧ l.Sorted versionLe) ∧
      ∀ name nv, (m.map Prod.fst).Nodup → (name, nv) ∈ m →
        assetsToDel params now nv = [] →
        name ∉ (prepare_assets_list params now m).map Prod.fst := by
  constructor
  · intro name l hmeml
    obtain ⟨nv, hnv, htd, hne⟩ := mem_prepare_assets_list.1 hmeml
    dsimp only at hnv htd hne
    obtain ⟨info, hinfo⟩ := (sort_assets_mem hm (name, nv) hnv).2
    dsimp only at hinfo
    refine ⟨hne, ?_⟩
    have hsorted : nv.Sorted versionLe := by
      rw [hinfo]; exact List.sorted_insertionSort versionLe info
    have hsub : List.Sublist l nv := htd ▸ assetsToDel_sublist params now nv
    exact List.Pairwise.sublist hsub hsorted
  · intro name nv hkeys hnv htd hin
    obtain ⟨q, hq, hq1⟩ := List.mem_map.1 hin
    obtain ⟨nv', hnv', htd', hne'⟩ := mem_prepare_assets_list.1 hq
    rw [hq1] at hnv'
    have : (name, nv') = (name, nv) :=
      List.inj_on_of_nodup_map hkeys hnv' hnv rfl
    injection this with _ hv
    subst hv
    rw [htd] at htd'
    exact hne' htd'.symm

/-- Witness for C6 at a concrete pipeline run: one name with two versions and
`count = 10`; its candidate list is empty so the plan omits it. -/
theorem C6_witness :
    sort_assets (Params.mk 10 none none false false)
        [("app", [("v1", [RawAsset.mk 1 "x"]), ("v2", [RawAsset.mk 2 "y"])])]
      = some [("app", List.insertionSort versionLe
            [Asset.mk "app" "v1" 1 "x", Asset.mk "app" "v2" 2 "y"])] ∧
    ((∀ name l, (name, l) ∈ prepare_assets_list (Params.mk 10 none none false false) 0
          [("app", List.insertionSort versionLe
              [Asset.mk "app" "v1" 1 "x", Asset.mk "app" "v2" 2 "y"])] →
        l ≠ [] ∧ l.Sorted versionLe) ∧
      ∀ name nv,
        (([("app", List.insertionSort versionLe
              [Asset.mk "app" "v1" 1 "x", Asset.mk "app" "v2" 2 "y"])]
            : List (String × List Asset)).map Prod.fst).Nodup →
        (name, nv) ∈ ([("app", List.insertionSort versionLe
              [Asset.mk "app" "v1" 1 "x", Asset.mk "app" "v2" 2 "y"])]
            : List (String × List Asset)) →
        assetsToDel (Params.mk 10 none none false false) 0 nv = [] →
        name ∉ (prepare_assets_list (Params.mk 10 none none false false) 0
            [("app", List.insertionSort versionLe
                [Asset.mk "app" "v1" 1 "x", Asset.mk "app" "v2" 2 "y"])]).map Prod.fst) :=
  ⟨by decide,
    C6_plan_invariants (Params.mk 10 none none false false) 0
      [("app", [("v1", [RawAsset.mk 1 "x"]), ("v2", [RawAsset.mk 2 "y"])])]
      [("app", List.insertionSort versionLe
          [Asset.mk "app" "v1" 1 "x", Asset.mk "app" "v2" 2 "y"])]
      (by decide)⟩

/-- C5: with a non-empty name filter, an artifact whose name is outside the
filter never appears in the deletion plan (it is skipped before aggregation,
so no key of the plan equals it), whatever its version count. -/
theorem C5_name_filter (params : Params) (now : Int)
    (g : List (String × List (String × List RawAsset))) (m : List (String × List Asset))
    (ns : List String) (name : String)
    (hns : params.names = some ns) (hne : ns ≠ []) (hname : name ∉ ns)
    (hm : sort_assets params g = some m) :
    name ∉ (prepare_assets_list params now m).map Prod.fst := by
  intro hin
  obtain ⟨q, hq, hq1⟩ := List.mem_map.1 hin
  obtain ⟨nv, hnv, _, _⟩ := mem_prepare_assets_list.1 hq
  have hall := (sort_assets_mem hm (q.1, nv) hnv).1
  rw [hq1] at hall
  simp only [nameAllowed, hns] at hall
  rw [if_neg (by simpa [List.isEmpty_eq_false] using hne)] at hall
  exact hname (List.elem_iff.1 hall)

/-- Witness for C5: the filter is `["x"]` and the artifact `app` has twelve
versions (more than `count = 10`) yet does not appear in the plan. -/
theorem C5_witness :
    ((Params.mk 10 none (some ["x"]) false false).names = some ["x"] ∧
      (["x"] : List String) ≠ [] ∧ "app" ∉ (["x"] : List String) ∧
      sort_assets (Params.mk 10 none (some ["x"]) false false)
          [("app", (List.range 12).map (fun i => (toString i, [RawAsset.mk (Int.ofNat i) (toString i)]))),
           ("x", [("v1", [RawAsset.mk 3 "s1"])])]
        = some [("x", List.insertionSort versionLe [Asset.mk "x" "v1" 3 "s1"])]) ∧
    "app" ∉ (prepare_assets_list (Params.mk 10 none (some ["x"]) false false) 0
        [("x", List.insertionSort versionLe [Asset.mk "x" "v1" 3 "s1"])]).map Prod.fst :=
  ⟨⟨rfl, by decide, by decide, by decide⟩,
    C5_name_filter (Params.mk 10 none (some ["x"]) false false) 0
      [("app", (List.range 12).map (fun i => (toString i, [RawAsset.mk (Int.ofNat i) (toString i)]))),
       ("x", [("v1", [RawAsset.mk 3 "s1"])])]
      [("x", List.insertionSort versionLe [Asset.mk "x" "v1" 3 "s1"])]
      ["x"] "app" rfl (by decide) (by decide) (by decide)⟩

theorem getLast?_orderedInsert (x : RawAsset) :
    ∀ (s : List RawAsset), s.Sorted assetLe →
      (List.orderedInsert assetLe x s).getLast? =
        (match s.getLast? with
         | none => some x
         | some m => if x.lastModified ≤ m.lastModified then some m else some x) := by
  intro s
  induction s with
  | nil => intro _; rfl
  | cons b t ih =>
    intro hs
    rw [List.orderedInsert]
    by_cases hxb : assetLe x b
    · rw [if_pos hxb, List.getLast?_cons_cons]
      cases hm : (b :: t).getLast? with
      | none => rw [List.getLast?_eq_none_iff] at hm; cases hm
      | some m =>
        have hmmem : m ∈ b :: t := List.mem_of_getLast?_eq_some hm
        have hbm : b.lastModified ≤ m.lastModified := by
          rcases List.mem_cons.1 hmmem with heq | hmt
          · rw [heq]
          · exact List.rel_of_sorted_cons hs m hmt
        show some m = if x.lastModified ≤ m.lastModified then some m else some x
        rw [if_pos (le_trans hxb hbm)]
    · rw [if_neg hxb]
      cases t with
      | nil =>
        have hxb' : ¬ x.lastModified ≤ b.lastModified := hxb
        simp [hxb']
      | cons c t2 =>
        have hst : (c :: t2).Sorted assetLe := (List.sorted_cons.1 hs).2
        have hne : List.orderedInsert assetLe x (c :: t2) ≠ [] := by
          intro hcon
          have hlen := List.orderedInsert_length (r := assetLe) (c :: t2) x
          rw [hcon] at hlen
          cases hlen
        obtain ⟨y, ys, hys⟩ := List.exists_cons_of_ne_nil hne
        rw [hys, List.getLast?_cons_cons, ← hys, ih hst, List.getLast?_cons_cons]

theorem getLast?_insertionSort_eq_lastMax (l : List RawAsset) :
    (List.insertionSort assetLe l).getLast? = lastMax l := by
  induction l with
  | nil => rfl
  | cons x t ih =>
    rw [List.insertionSort,
      getLast?_orderedInsert x _ (List.sorted_insertionSort assetLe t), ih]
    simp only [lastMax]
    cases hl : lastMax t with
    | none => rfl
    | some m =>
      show (if x.lastModified ≤ m.lastModified then some m else some x)
        = if m.lastModified < x.lastModified then some x else some m
      by_cases hxm : x.lastModified ≤ m.lastModified
      · rw [if_pos hxm, if_neg (not_lt.2 hxm)]
      · rw [if_neg hxm, if_pos (not_le.1 hxm)]

theorem lastMax_cons_ne_none (x : RawAsset) (t : List RawAsset) : lastMax (x :: t) ≠ none := by
  simp only [lastMax]
  cases lastMax t with
  | none => exact fun h => Option.noConfusion h
  | some m =>
    show (if m.lastModified < x.lastModified then some x else some m) ≠ none
    by_cases hc : m.lastModified < x.lastModified
    · rw [if_pos hc]; exact fun h => Option.noConfusion h
    · rw [if_neg hc]; exact fun h => Option.noConfusion h

theorem lastMax_mem_max : ∀ {l : List RawAsset} {a : RawAsset}, lastMax l = some a →
    a ∈ l ∧ ∀ b ∈ l, b.lastModified ≤ a.lastModified := by
  intro l
  induction l with
  | nil => intro a h; cases h
  | cons x t ih =>
    intro a h
    cases hl : lastMax t with
    | none =>
      simp only [lastMax, hl] at h
      injection h with h
      subst h
      have ht : t = [] := by
        cases t with
        | nil => rfl
        | cons y ys => exact absurd hl (lastMax_cons_ne_none y ys)
      subst ht
      refine ⟨by simp, ?_⟩
      intro b hb
      rw [List.mem_singleton.1 hb]
    | some m =>
      simp only [lastMax, hl] at h
      by_cases hc : m.lastModified < x.lastModified
      · rw [if_pos hc] at h
        injection h with h
        subst h
        refine ⟨List.mem_cons_self x t, ?_⟩
        intro b hb
        rcases List.mem_cons.1 hb with heq | hbt
        · rw [heq]
        · exact le_trans ((ih hl).2 b hbt) (le_of_lt hc)
      · rw [if_neg hc] at h
        injection h with h
        subst h
        refine ⟨List.mem_cons_of_mem x (ih hl).1, ?_⟩
        intro b hb
        rcases List.mem_cons.1 hb with heq | hbt
        · rw [heq]; exact not_lt.1 hc
        · exact (ih hl).2 b hbt

theorem lastMax_filter_getLast? : ∀ {l : List RawAsset} {a : RawAsset}, lastMax l = some a →
    (l.filter (fun b => b.lastModified == a.lastModified)).getLast? = some a := by
  intro l
  induction l with
  | nil => intro a h; cases h
  | cons x t ih =>
    intro a h
    cases hl : lastMax t with
    | none =>
      simp only [lastMax, hl] at h
      injection h with h
      subst h
      have ht : t = [] := by
        cases t with
        | nil => rfl
        | cons y ys => exact absurd hl (lastMax_cons_ne_none y ys)
      subst ht
      simp
    | some m =>
      simp only [lastMax, hl] at h
      by_cases hc : m.lastModified < x.lastModified
      · rw [if_pos hc] at h
        injection h with h
        subst h
        have htf : t.filter (fun b => b.lastModified == x.lastModified) = [] := by
          rw [List.filter_eq_nil_iff]
          intro b hb
          have hble : b.lastModified ≤ m.lastModified := (lastMax_mem_max hl).2 b hb
          simp only [beq_iff_eq]
          exact fun hbeq => absurd (hbeq ▸ hc) (not_lt.2 hble)
        rw [List.filter_cons_of_pos (by simp), htf]
        rfl
      · rw [if_neg hc] at h
        injection h with h
        subst h
        have hne : t.filter (fun b => b.lastModified == m.lastModified) ≠ [] := by
          intro hcon
          have hcontr := ih hl
          rw [hcon] at hcontr
          cases hcontr
        obtain ⟨y, ys, hys⟩ := List.exists_cons_of_ne_nil hne
        by_cases hx : x.lastModified = m.lastModified
        · rw [List.filter_cons_of_pos (by simpa using hx), hys,
            List.getLast?_cons_cons, ← hys]
          exact ih hl
        · rw [List.filter_cons_of_neg (by simpa using hx)]
          exact ih hl

/-- C8: aggregating a version is total when its asset list is non-empty (a
record is produced), while an empty asset list makes the source computation
(`sorted(assets)[-1]`, an `IndexError`) fail — modelled as `none` — instead
of producing a record or silently skipping the version. -/
theorem C8_aggregation_empty_assets (name ver : String) (assets : List RawAsset) :
    (assets ≠ [] → ∃ latest, latestAsset assets = some latest ∧
        collectVersions name [(ver, assets)]
          = some [Asset.mk name ver latest.lastModified latest.id]) ∧
      collectVersions name [(ver, [])] = none := by
  constructor
  · intro hne
    have hsome : (latestAsset assets).isSome := by
      rw [latestAsset, List.getLast?_isSome]
      intro hnil
      have hp := List.perm_insertionSort assetLe assets
      rw [hnil] at hp
      exact hne hp.symm.eq_nil
    obtain ⟨latest, hlatest⟩ := Option.isSome_iff_exists.1 hsome
    refine ⟨latest, hlatest, ?_⟩
    simp [collectVersions, hlatest]
  · rfl

/-- Witness for C8 at a one-asset version. -/
theorem C8_witness :
    (([RawAsset.mk 7 "x"] : List RawAsset) ≠ [] ∧
      ∃ latest, latestAsset [RawAsset.mk 7 "x"] = some latest ∧
        collectVersions "img" [("v1", [RawAsset.mk 7 "x"])]
          = some [Asset.mk "img" "v1" latest.lastModified latest.id]) ∧
      collectVersions "img" [("v1", [])] = none :=
  ⟨⟨by decide,
      (C8_aggregation_empty_assets "img" "v1" [RawAsset.mk 7 "x"]).1 (by decide)⟩,
    (C8_aggregation_empty_assets "img" "v1" [RawAsset.mk 7 "x"]).2⟩

/-- Counterexample to C2 as stated: for a version whose two assets share the
maximum timestamp `5` in enumeration order `["a", "b"]`, the claim predicts
the deletion handle `"a"` (first maximum), but the source computes
`sorted(assets, key=...)[-1]`, which is the LAST maximum in enumeration
order, so the aggregated record carries handle `"b"`. -/
theorem C2_counterexample :
    collectVersions "img" [("v1", [RawAsset.mk 5 "a", RawAsset.mk 5 "b"])]
      = some [Asset.mk "img" "v1" 5 "b"] ∧
      collectVersions "img" [("v1", [RawAsset.mk 5 "a", RawAsset.mk 5 "b"])]
        ≠ some [Asset.mk "img" "v1" 5 "a"] := by
  constructor
  · rfl
  · decide

/-- C2 amended: the aggregated record's `lastModified` is the maximum
timestamp among the version's assets and its handle is the id of the asset
achieving that maximum, with ties between equal maxima broken in favour of
the LAST such asset in the enumeration order (the last element of the filter
of maximum-achieving assets). -/
theorem C2_aggregation_last_tie (name ver : String) (assets : List RawAsset)
    (h : assets ≠ []) :
    ∃ latest, latestAsset assets = some latest ∧ latest ∈ assets ∧
      (∀ b ∈ assets, b.lastModified ≤ latest.lastModified) ∧
      (assets.filter (fun b => b.lastModified == latest.lastModified)).getLast?
        = some latest ∧
      collectVersions name [(ver, assets)]
        = some [Asset.mk name ver latest.lastModified latest.id] := by
  cases hl : lastMax assets with
  | none =>
    exfalso
    cases assets with
    | nil => exact h rfl
    | cons y ys => exact lastMax_cons_ne_none y ys hl
  | some latest =>
    have hla : latestAsset assets = some latest := by
      rw [latestAsset, getLast?_insertionSort_eq_lastMax, hl]
    refine ⟨latest, hla, (lastMax_mem_max hl).1, (lastMax_mem_max hl).2,
      lastMax_filter_getLast? hl, ?_⟩
    simp [collectVersions, hla]

/-- Witness for C2's amended statement at the tied input `["a", "b"]`:
the chosen handle is that of the second (last) maximum. -/
theorem C2_amended_witness :
    (([RawAsset.mk 5 "a", RawAsset.mk 5 "b"] : List RawAsset) ≠ []) ∧
      ∃ latest, latestAsset [RawAsset.mk 5 "a", RawAsset.mk 5 "b"] = some latest ∧
        latest ∈ [RawAsset.mk 5 "a", RawAsset.mk 5 "b"] ∧
        (∀ b ∈ [RawAsset.mk 5 "a", RawAsset.mk 5 "b"],
          b.lastModified ≤ latest.lastModified) ∧
        (([RawAsset.mk 5 "a", RawAsset.mk 5 "b"] : List RawAsset).filter
            (fun b => b.lastModified == latest.lastModified)).getLast? = some latest ∧
        collectVersions "img" [("v1", [RawAsset.mk 5 "a", RawAsset.mk 5 "b"])]
          = some [Asset.mk "img" "v1" latest.lastModified latest.id] :=
  ⟨by decide,
    C2_aggregation_last_tie "img" "v1" [RawAsset.mk 5 "a", RawAsset.mk 5 "b"] (by decide)⟩

/-- C4: when the audit view is requested (`full_info`), every processed name
emits its full annotated list — one entry per version in the name's full
ascending list, marked keep exactly when the version is not a member of the
deletion-plan entry for that name — whether or not anything is selected for
deletion (the entry for the name may be absent from the plan, in which case
its plan entry is empty and everything is marked keep). -/
theorem C4_audit_view (params : Params) (now : Int)
    (grouped : List (String × List Asset)) (name : String) (nv : List Asset)
    (hfull : params.full_info = true)
    (hkeys : (grouped.map Prod.fst).Nodup)
    (hids : (nv.map Asset.id).Nodup)
    (hmem : (name, nv) ∈ grouped) :
    (name, nv.map (fun v =>
        (v, decide (v ∉ planLookup name (prepare_assets_list params now grouped)))))
      ∈ auditView params now grouped := by
  unfold auditView
  rw [if_pos hfull]
  have hplan : planLookup name (prepare_assets_list params now grouped)
      = assetsToDel params now nv := planLookup_prepare params now grouped name nv hkeys hmem
  have hentry : (name, print_full_log nv (assetsToDel params now nv))
      ∈ grouped.map (fun p => (p.1, print_full_log p.2 (assetsToDel params now p.2))) :=
    List.mem_map.2 ⟨(name, nv), hmem, rfl⟩
  have heq : print_full_log nv (assetsToDel params now nv)
      = nv.map (fun v =>
          (v, decide (v ∉ planLookup name (prepare_assets_list params now grouped)))) := by
    rw [hplan]
    simp only [print_full_log]
    apply List.map_congr_left
    intro v hv
    have hsub : ∀ u ∈ assetsToDel params now nv, u ∈ nv :=
      (assetsToDel_sublist params now nv).subset
    by_cases hvin : v ∈ assetsToDel params now nv
    · have hc : ((assetsToDel params now nv).map (fun one => one.id)).contains v.id = true :=
        List.elem_iff.2 (List.mem_map.2 ⟨v, hvin, rfl⟩)
      rw [hc]
      simp [hvin]
    · have hnid : v.id ∉ (assetsToDel params now nv).map (fun one => one.id) := by
        intro hid
        obtain ⟨u, hu, huid⟩ := List.mem_map.1 hid
        have huv : u = v := List.inj_on_of_nodup_map hids (hsub u hu) hv huid
        exact hvin (huv ▸ hu)
      have hc : ((assetsToDel params now nv).map (fun one => one.id)).contains v.id = false := by
        rw [← Bool.not_eq_true]
        intro hcon
        exact hnid (List.elem_iff.1 hcon)
      rw [hc]
      simp [hvin]
  rw [← heq]
  exact hentry

/-- Witness for C4: three versions, `count = 1`, audit view on; the two oldest
are annotated delete and the newest keep, and the annotated entry is emitted. -/
theorem C4_witness :
    ((Params.mk 1 none none false true).full_info = true ∧
      (([("app", [Asset.mk "app" "v1" 1 "i1", Asset.mk "app" "v2" 2 "i2",
            Asset.mk "app" "v3" 3 "i3"])] : List (String × List Asset)).map Prod.fst).Nodup ∧
      (([Asset.mk "app" "v1" 1 "i1", Asset.mk "app" "v2" 2 "i2",
          Asset.mk "app" "v3" 3 "i3"] : List Asset).map Asset.id).Nodup) ∧
    ("app", ([Asset.mk "app" "v1" 1 "i1", Asset.mk "app" "v2" 2 "i2",
          Asset.mk "app" "v3" 3 "i3"] : List Asset).map (fun v =>
        (v, decide (v ∉ planLookup "app" (prepare_assets_list (Params.mk 1 none none false true) 0
            [("app", [Asset.mk "app" "v1" 1 "i1", Asset.mk "app" "v2" 2 "i2",
              Asset.mk "app" "v3" 3 "i3"])])))))
      ∈ auditView (Params.mk 1 none none false true) 0
          [("app", [Asset.mk "app" "v1" 1 "i1", Asset.mk "app" "v2" 2 "i2",
            Asset.mk "app" "v3" 3 "i3"])] :=
  ⟨⟨rfl, by decide, by decide⟩,
    C4_audit_view (Params.mk 1 none none false true) 0
      [("app", [Asset.mk "app" "v1" 1 "i1", Asset.mk "app" "v2" 2 "i2",
        Asset.mk "app" "v3" 3 "i3"])] "app"
      [Asset.mk "app" "v1" 1 "i1", Asset.mk "app" "v2" 2 "i2", Asset.mk "app" "v3" 3 "i3"]
      rfl (by decide) (by decide) (by decide)⟩
